import Mathlib

/-!
Verification of the konflux_metrics historical merge engine and aggregators.

The definitions below are a shallow embedding of the Python sources:
`append_to_historical.py` (the merge/dedup/retention/sort pipeline and the
summary calculation), `analyze_github_flakiness.py` and
`analyze_gitlab_flakiness.py` (the per-change rerun counting and the per-repo
summary). Timestamps are ISO-8601 strings compared lexicographically, exactly
as the Python code compares them (jq `.merged_at >= "cutoff"` and
`sort(key=..., reverse=True)` both compare the literal strings).
-/

namespace Konflux

/-- Lexicographic comparison of character lists by code point, the order
Python and jq use when comparing the `merged_at` strings. -/
def lexLe : List Char → List Char → Bool
  | [], _ => true
  | _ :: _, [] => false
  | a :: as, b :: bs => if a = b then lexLe as bs else decide (a < b)

/-- String comparison on the underlying character data: `strLe a b` is the
Python/jq string comparison `a <= b`. -/
def strLe (a b : String) : Bool := lexLe a.data b.data

/-- One per-change record (a PR for GitHub, an MR for GitLab). `item_id` is
the `id_key` field (`pr_number` / `mr_iid`); `total_runs` doubles as
`total_pipelines` on the GitLab side; `retest_comments` and
`update_branch_count` model the GitHub-only keys read with `.get(key, 0)`. -/
structure Item where
  item_id : Nat
  title : String
  merged_at : String
  author : String
  total_commits : Nat
  total_runs : Nat
  total_retests : Nat
  commits_with_retests : Nat
  retest_comments : Nat
  update_branch_count : Nat
deriving DecidableEq, Repr

/-- Overall summary built by `merge_data` / `calculate_summary`
(append_to_historical.py lines 91-109 and 219-236). `retest_rate` is the
Python float expression `items_with_retests / total_items * 100`, modelled
exactly over the rationals. The two GitHub-only sums are present exactly
when the platform has `extra_metrics` set. -/
structure Summary where
  total_items : Nat
  total_retests : Nat
  items_with_retests : Nat
  retest_rate : Rat
  retest_comments : Option Nat
  update_branch_actions : Option Nat
deriving DecidableEq, Repr

/-- The persisted historical document: `created_at`/`days_analyzed` are set at
initialization (append_to_historical.py lines 166-172); the group mapping
(`repositories` / `projects`) is an insertion-ordered association list, as a
Python dict serialized to JSON is; `last_updated`, `cutoff_date` and
`summary` are absent until the first merge writes them. -/
structure Store where
  created_at : String
  days_analyzed : Nat
  groups : List (String × List Item)
  last_updated : Option String
  cutoff_date : Option String
  summary : Option Summary
deriving DecidableEq, Repr

section AssocDict

variable {κ : Type} {ν : Type} [DecidableEq κ]

/-- Key list of an insertion-ordered dict (a Python dict as JSON records it). -/
def akeys (d : List (κ × ν)) : List κ := d.map Prod.fst

/-- Python `key in dict`. -/
def akeyMem (d : List (κ × ν)) (k : κ) : Bool := d.any (fun p => decide (p.1 = k))

/-- Python `dict.get(key)`: the value of the first (and in a real dict only)
entry with the key. -/
def alookup (d : List (κ × ν)) (k : κ) : Option ν :=
  (d.find? (fun p => decide (p.1 = k))).map Prod.snd

/-- Overwrite of the value at an already-present key, keeping its position,
as Python dict assignment does for a present key. -/
def aset (d : List (κ × ν)) (k : κ) (v : ν) : List (κ × ν) :=
  d.map (fun p => if p.1 = k then (k, v) else p)

/-- Python `dict[key] = value`: overwrite in place when the key is present,
append at the end otherwise. -/
def aput (d : List (κ × ν)) (k : κ) (v : ν) : List (κ × ν) :=
  if akeyMem d k then aset d k v else d ++ [(k, v)]

/-- First defined option, the composition law of shadowed dict lookups. -/
def firstSome {α : Type} (a b : Option α) : Option α :=
  match a with
  | some x => some x
  | none => b

end AssocDict

/-- Python dict assignment `existing_dict[item_id] = new_item`
(append_to_historical.py lines 191-193). -/
def upsertItem (d : List (Nat × Item)) (x : Item) : List (Nat × Item) :=
  aput d x.item_id x

/-- Folding a list of items into a dict, as both the comprehension
`{item[id_key]: item for item in existing_items}` (line 188) and the
`for new_item in new_items` loop (lines 191-193) do. -/
def buildDict (d : List (Nat × Item)) (l : List Item) : List (Nat × Item) :=
  l.foldl upsertItem d

/-- The jq retention predicate `.merged_at >= "cutoff_iso"`
(append_to_historical.py lines 199-201). -/
def passesCutoff (cutoff : String) (x : Item) : Bool := strLe cutoff x.merged_at

/-- Stable descending insertion of one item, keyed on `merged_at`. -/
def insertDesc (x : Item) : List Item → List Item
  | [] => [x]
  | y :: ys => if strLe y.merged_at x.merged_at then x :: y :: ys else y :: insertDesc x ys

/-- Stable sort by `merged_at` descending, the semantics of
`filtered_items.sort(key=lambda x: x['merged_at'], reverse=True)`
(append_to_historical.py line 204): Python's sort is stable, and a stable
sort's output is uniquely determined, so this insertion sort computes the
same list. -/
def sortDesc (l : List Item) : List Item := l.foldr insertDesc []

/-- The whole body of the per-group merge (append_to_historical.py lines
187-206): index the existing records by id, upsert every new record by id,
take the dict values, drop the records below the cutoff, and sort the
survivors by `merged_at` descending. -/
def mergeGroup (existing newItems : List Item) (cutoff : String) : List Item :=
  let d := buildDict (buildDict [] existing) newItems
  let allItems := d.map Prod.snd
  let filtered := allItems.filter (passesCutoff cutoff)
  sortDesc filtered

/-- Dict lookup `historical[container_key].get(name)` on the group mapping. -/
def findGroup? (hg : List (String × List Item)) (name : String) : Option (List Item) :=
  alookup hg name

/-- Membership test `name not in historical[container_key]` (line 180). -/
def hasGroup (hg : List (String × List Item)) (name : String) : Bool :=
  akeyMem hg name

/-- Creation of a fresh empty group,
`historical[container_key][name] = {items_key: []}` (line 181). -/
def ensureGroup (hg : List (String × List Item)) (name : String) : List (String × List Item) :=
  if hasGroup hg name then hg else hg ++ [(name, [])]

/-- Assignment `historical[container_key][name][items_key] = filtered_items`
(line 206): overwrite the entry in place. -/
def setItems (hg : List (String × List Item)) (name : String) (items : List Item) :
    List (String × List Item) :=
  aset hg name items

/-- One iteration of the `for name, data in increment...` loop
(append_to_historical.py lines 179-206). -/
def processGroup (cutoff : String) (hg : List (String × List Item))
    (g : String × List Item) : List (String × List Item) :=
  let hg1 := ensureGroup hg g.1
  let existing := (findGroup? hg1 g.1).getD []
  setItems hg1 g.1 (mergeGroup existing g.2 cutoff)

/-- The whole group loop: fold the increment's groups, in order, into the
historical group mapping. -/
def groupsAfter (cutoff : String) (hg inc : List (String × List Item)) :
    List (String × List Item) :=
  inc.foldl (processGroup cutoff) hg

/-- Collection of every stored record across groups for the overall summary
(append_to_historical.py lines 215-217): `all_items.extend(...)` over the
container values. -/
def allStoreItems (gs : List (String × List Item)) : List Item :=
  gs.foldl (fun acc p => acc ++ p.2) []

/-- Summary computation shared by `calculate_summary` (lines 91-109) and the
inline block of `merge_data` (lines 219-236); `extra` is the platform's
`extra_metrics` flag. -/
def calculateSummary (allItems : List Item) (extra : Bool) : Summary :=
  let total_items := allItems.length
  let total_retests := (allItems.map (fun it => it.total_retests)).sum
  let items_with_retests := (allItems.filter (fun it => decide (it.total_retests > 0))).length
  { total_items := total_items
    total_retests := total_retests
    items_with_retests := items_with_retests
    retest_rate := if total_items > 0 then (items_with_retests : Rat) / (total_items : Rat) * 100 else 0
    retest_comments := if extra then some ((allItems.map (fun it => it.retest_comments)).sum) else none
    update_branch_actions := if extra then some ((allItems.map (fun it => it.update_branch_count)).sum) else none }

/-- New historical structure (append_to_historical.py lines 166-172). -/
def initHistorical (now : String) (days : Nat) : Store :=
  { created_at := now
    days_analyzed := days
    groups := []
    last_updated := none
    cutoff_date := none
    summary := none }

/-- The effect of `merge_data` on a present, truthy increment: initialize the
store when absent, run the group loop, stamp `last_updated`/`cutoff_date`,
and recompute the overall summary (append_to_historical.py lines 158-241).
`now` is the run's `datetime.now` and `cutoff` its precomputed
`cutoff_iso`; both are fixed inputs of one invocation. -/
def mergeStore (incGroups : List (String × List Item)) (hist : Option Store)
    (now cutoff : String) (extra : Bool) (days : Nat) : Store :=
  let h0 := match hist with
    | none => initHistorical now days
    | some h => h
  let gs := groupsAfter cutoff h0.groups incGroups
  { created_at := h0.created_at
    days_analyzed := h0.days_analyzed
    groups := gs
    last_updated := some now
    cutoff_date := some cutoff
    summary := some (calculateSummary (allStoreItems gs) extra) }

/-- The top of `merge_data` (append_to_historical.py lines 158-163): a falsy
increment (missing file, or empty JSON document) returns without touching the
historical file at all. -/
def mergeData (incr : Option (List (String × List Item))) (hist : Option Store)
    (now cutoff : String) (extra : Bool) (days : Nat) : Option Store :=
  match incr with
  | none => hist
  | some incGroups => some (mergeStore incGroups hist now cutoff extra days)

/-- Per-commit retry count `max(0, run_count - 1)`
(analyze_github_flakiness.py line 141, analyze_gitlab_flakiness.py line 193). -/
def retestOfRuns (n : Int) : Int := max 0 (n - 1)

/-- One iteration of the per-commit accumulation shared by
`HistoricalFlakinessAnalyzer.analyze_pr` (lines 136-147) and
`GitLabFlakinessAnalyzer.analyze_mr` (lines 184-199): the accumulator is
`(total_runs, total_retests, commits_with_retests)` and `rc` the commit's
attributable instance count. -/
def runTotalsStep (acc : Int × Int × Int) (rc : Int) : Int × Int × Int :=
  let retest := max 0 (rc - 1)
  (acc.1 + rc, acc.2.1 + retest, acc.2.2 + (if retest > 0 then 1 else 0))

/-- The accumulation loop of `HistoricalFlakinessAnalyzer.analyze_pr`
(analyze_github_flakiness.py lines 132-151), given each commit's Konflux
check-suite instance count. -/
def analyzePRTotals (runCounts : List Int) : Int × Int × Int :=
  runCounts.foldl runTotalsStep (0, 0, 0)

/-- The accumulation loop of `GitLabFlakinessAnalyzer.analyze_mr`
(analyze_gitlab_flakiness.py lines 180-199), given each commit's Konflux
pipeline count. -/
def analyzeMRTotals (pipelineCounts : List Int) : Int × Int × Int :=
  pipelineCounts.foldl runTotalsStep (0, 0, 0)

/-- Per-repository summary of `main` (analyze_github_flakiness.py lines
297-319; the GitLab `main` at lines 349-371 is the same computation), with
the guarded rate/average divisions. -/
structure RepoSummary where
  total_prs_analyzed : Nat
  total_commits : Nat
  total_runs : Nat
  total_retests : Nat
  prs_with_retests : Nat
  pr_retest_rate : Rat
  avg_retests_per_pr : Rat
  avg_retests_per_commit : Rat
deriving DecidableEq, Repr

/-- The statistics block of `main` (analyze_github_flakiness.py lines
297-319) over the per-change result records of one repository. -/
def repoSummary (results : List Item) : RepoSummary :=
  let total_prs_analyzed := results.length
  let total_commits := (results.map (fun r => r.total_commits)).sum
  let total_runs := (results.map (fun r => r.total_runs)).sum
  let total_retests := (results.map (fun r => r.total_retests)).sum
  let prs_with_retests := (results.filter (fun r => decide (r.total_retests > 0))).length
  { total_prs_analyzed := total_prs_analyzed
    total_commits := total_commits
    total_runs := total_runs
    total_retests := total_retests
    prs_with_retests := prs_with_retests
    pr_retest_rate :=
      if total_prs_analyzed > 0 then (prs_with_retests : Rat) / (total_prs_analyzed : Rat) * 100 else 0
    avg_retests_per_pr :=
      if total_prs_analyzed > 0 then (total_retests : Rat) / (total_prs_analyzed : Rat) else 0
    avg_retests_per_commit :=
      if total_commits > 0 then (total_retests : Rat) / (total_commits : Rat) else 0 }

/-- Whitespace test used by the comment tokenizer. -/
def isSpaceChar (c : Char) : Bool :=
  decide (c = ' ') || decide (c = '\t') || decide (c = '\n') || decide (c = '\r')

/-- Accumulator pass splitting a character list at newline boundaries. -/
def splitLinesGo (acc : List Char) : List Char → List (List Char)
  | [] => [acc.reverse]
  | c :: rest =>
    if c = '\n' then acc.reverse :: splitLinesGo [] rest else splitLinesGo (c :: acc) rest

/-- Line splitting of a comment body. -/
def splitLines (cs : List Char) : List (List Char) := splitLinesGo [] cs

/-- Whitespace trimming at both ends of a character list. -/
def trimChars (cs : List Char) : List Char :=
  ((cs.dropWhile isSpaceChar).reverse.dropWhile isSpaceChar).reverse

/-- First whitespace-delimited token of a line. -/
def firstTokenOf (cs : List Char) : List Char :=
  (trimChars cs).takeWhile (fun c => !isSpaceChar c)

/-- The retry command token of the comment-command strategy. -/
def retryTokenChars : List Char := "/retest".data

/-- Modelled from the spec: the comment-command retry detector itself is not
in src/ (src only aggregates its per-item `retest_comments` sums in
append_to_historical.py lines 104-108 and 231-236). Per the spec, a
discussion comment qualifies iff its body, case-insensitively trimmed,
starts with the retry command token or contains it as the first token of a
line. -/
def commentIsRetry (body : String) : Bool :=
  let b := trimChars (body.data.map Char.toLower)
  retryTokenChars.isPrefixOf b ||
    (splitLines b).any (fun ln => decide (firstTokenOf ln = retryTokenChars))

/-- Modelled from the spec: each qualifying comment counts once toward the
comment-retry count of a change. -/
def commentRetryCount (comments : List String) : Nat :=
  (comments.filter commentIsRetry).length

/-- Identity sequence of a record list. -/
def idsOf (l : List Item) : List Nat := l.map (fun it => it.item_id)

/-- Every dict entry built by the merge keys a record by its own `item_id`. -/
def KeysOk (d : List (Nat × Item)) : Prop := ∀ p ∈ d, p.1 = p.2.item_id

/-- Last record carrying a given id in a scan order, i.e. the value a
sequence of dict assignments leaves at that key. -/
def lastWithId (l : List Item) (k : Nat) : Option Item :=
  (l.filter (fun it => decide (it.item_id = k))).getLast?

/-- Rewriting of a dict by the final values an upsert sequence assigns to
its already-present keys. -/
def applyNew (new : List Item) (d : List (Nat × Item)) : List (Nat × Item) :=
  d.map (fun p => match lastWithId new p.1 with | some w => (p.1, w) | none => p)

/-- Record lookup by id inside one group's stored list. -/
def findItem (l : List Item) (k : Nat) : Option Item :=
  l.find? (fun it => decide (it.item_id = k))

/-- Retention gate on an optional record. -/
def passOpt (cutoff : String) (o : Option Item) : Option Item :=
  match o with
  | some r => if passesCutoff cutoff r then some r else none
  | none => none

/-- Sort relation of the stored lists: `merged_at` non-increasing. -/
def descBy (a b : Item) : Prop := strLe b.merged_at a.merged_at = true

instance : DecidableRel descBy := fun a b => instDecidableEqBool (strLe b.merged_at a.merged_at) true

/-- Group mapping of an optional store (empty when the store is absent). -/
def storeGroups (hist : Option Store) : List (String × List Item) :=
  match hist with
  | none => []
  | some h => h.groups

/-- Well-formedness a JSON-loaded store always has: group names are unique,
since a JSON object cannot carry duplicate keys. -/
def storeKeysNodup (hist : Option Store) : Prop :=
  ((storeGroups hist).map Prod.fst).Nodup

/-- Record list of one group inside an increment batch. -/
def batchItems (batch : List (String × List Item)) (g : String) : List Item :=
  (alookup batch g).getD []

/-- Record stored for a given group and id in an optional store. -/
def itemAt (st : Option Store) (g : String) (k : Nat) : Option Item :=
  match st with
  | some s =>
    match findGroup? s.groups g with
    | some items => findItem items k
    | none => none
  | none => none

/-- Record with no commits but a positive retest count, for the zero-commit
witness. -/
def zeroCommitItem : Item :=
  { item_id := 5, title := "t", merged_at := "2025-06-01T00:00:00+00:00", author := "a",
    total_commits := 0, total_runs := 3, total_retests := 7, commits_with_retests := 0,
    retest_comments := 0, update_branch_count := 0 }

/-- Record builder for the concrete test fixtures below. -/
def mkItem (id : Nat) (ts : String) (retests : Nat) : Item :=
  { item_id := id, title := "t", merged_at := ts, author := "a",
    total_commits := 1, total_runs := 1, total_retests := retests, commits_with_retests := 0,
    retest_comments := 0, update_branch_count := 0 }

/-- A fixed run timestamp for the concrete scenarios. -/
def now0 : String := "2025-06-02T00:00:00+00:00"

/-- A fixed retention cutoff for the concrete scenarios. -/
def cutoff0 : String := "2025-03-04T00:00:00+00:00"

/-- Record far older than `cutoff0`, sitting in a group the increment does
not touch. -/
def oldItem : Item := mkItem 1 "2020-01-01T00:00:00+00:00" 0

/-- Record comfortably inside the retention window. -/
def freshItem : Item := mkItem 2 "2025-06-01T00:00:00+00:00" 1

/-- Prior store holding only the stale record, in group "g2". -/
def staleStore : Store :=
  { created_at := "2020-01-02T00:00:00+00:00", days_analyzed := 90,
    groups := [("g2", [oldItem])], last_updated := none, cutoff_date := none, summary := none }

/-- Increment touching only group "g1". -/
def incFresh : List (String × List Item) := [("g1", [freshItem])]

/-- Existing record for id 42 with one retest, inside the window. -/
def ex42old : Item := mkItem 42 "2025-05-01T00:00:00+00:00" 1

/-- Incoming record for id 42 with three retests but merged before the
cutoff. -/
def ex42new : Item := mkItem 42 "2020-01-01T00:00:00+00:00" 3

/-- Incoming record for id 42 with three retests, inside the window. -/
def ex42ok : Item := mkItem 42 "2025-05-02T00:00:00+00:00" 3

/-- Prior store holding the existing id-42 record in group "g". -/
def store42 : Store :=
  { created_at := "2025-01-01T00:00:00+00:00", days_analyzed := 90,
    groups := [("g", [ex42old])], last_updated := none, cutoff_date := none, summary := none }

/-- Increment replacing id 42 with a record older than the cutoff. -/
def inc42 : List (String × List Item) := [("g", [ex42new])]

/-- Increment replacing id 42 with an in-window record. -/
def inc42ok : List (String × List Item) := [("g", [ex42ok])]

/-- Existing record for id 7 with the NEWER `merged_at`. -/
def lwwNewer : Item := mkItem 7 "2025-06-01T00:00:00+00:00" 5

/-- Incoming record for id 7 with the OLDER `merged_at`, both in-window. -/
def lwwOlder : Item := mkItem 7 "2025-04-01T00:00:00+00:00" 0

/-- Prior store holding the newer id-7 record. -/
def lwwStore : Store :=
  { created_at := "2025-01-01T00:00:00+00:00", days_analyzed := 90,
    groups := [("g", [lwwNewer])], last_updated := none, cutoff_date := none, summary := none }

/-- Increment carrying the older id-7 record. -/
def lwwInc : List (String × List Item) := [("g", [lwwOlder])]

/-- Records with distinct ids but the same `merged_at`, for the ordering
tie. -/
def tieA : Item := mkItem 1 "2025-05-01T00:00:00+00:00" 0

/-- Second record of the `merged_at` tie. -/
def tieB : Item := mkItem 2 "2025-05-01T00:00:00+00:00" 0

/-- Batch carrying only `tieA`. -/
def batchA : List (String × List Item) := [("g", [tieA])]

/-- Batch carrying only `tieB`, identity-disjoint from `batchA`. -/
def batchB : List (String × List Item) := [("g", [tieB])]

theorem firstSome_none_right {α : Type} (a : Option α) : firstSome a none = a := by
  cases a <;> rfl

section AssocDictLemmas

variable {κ : Type} {ν : Type} [DecidableEq κ]

theorem akeyMem_iff_mem (d : List (κ × ν)) (k : κ) : akeyMem d k = true ↔ k ∈ akeys d := by
  simp [akeyMem, akeys, List.any_eq_true]

theorem akeyMem_false_iff (d : List (κ × ν)) (k : κ) : akeyMem d k = false ↔ k ∉ akeys d := by
  rw [← akeyMem_iff_mem]
  cases akeyMem d k <;> simp

theorem alookup_cons (p : κ × ν) (d : List (κ × ν)) (m : κ) :
    alookup (p :: d) m = if p.1 = m then some p.2 else alookup d m := by
  by_cases h : p.1 = m
  · rw [alookup, List.find?_cons_of_pos _ (by simp [h]), if_pos h]
    rfl
  · rw [alookup, List.find?_cons_of_neg _ (by simp [h]), if_neg h]
    rfl

theorem akeyMem_cons (p : κ × ν) (d : List (κ × ν)) (k : κ) :
    akeyMem (p :: d) k = (decide (p.1 = k) || akeyMem d k) := by
  simp [akeyMem]

theorem aset_cons (p : κ × ν) (d : List (κ × ν)) (k : κ) (v : ν) :
    aset (p :: d) k v = (if p.1 = k then (k, v) else p) :: aset d k v := rfl

theorem akeys_aset (d : List (κ × ν)) (k : κ) (v : ν) : akeys (aset d k v) = akeys d := by
  simp only [akeys, aset, List.map_map]
  refine List.map_congr_left ?_
  intro p _
  by_cases h : p.1 = k
  · simp [h]
  · simp [h]

theorem alookup_aset (d : List (κ × ν)) (k : κ) (v : ν) (m : κ) :
    alookup (aset d k v) m =
      if m = k then (if akeyMem d k then some v else none) else alookup d m := by
  induction d with
  | nil =>
    by_cases hm : m = k <;> simp [alookup, aset, akeyMem, hm]
  | cons p rest ih =>
    rw [aset_cons, alookup_cons, alookup_cons, ih, akeyMem_cons]
    by_cases hp : p.1 = k
    · by_cases hm : m = k
      · simp [hp, hm]
      · have : ¬ ((k : κ) = m) := fun h => hm h.symm
        simp [hp, hm, this]
    · by_cases hm : m = k
      · have : ¬ (p.1 = m) := fun h => hp (h.trans hm)
        simp [hp, hm, this]
      · by_cases hpm : p.1 = m <;> simp [hp, hm, hpm]

theorem alookup_append (d1 d2 : List (κ × ν)) (k : κ) :
    alookup (d1 ++ d2) k = firstSome (alookup d1 k) (alookup d2 k) := by
  induction d1 with
  | nil => rfl
  | cons p rest ih =>
    rw [List.cons_append, alookup_cons, alookup_cons, ih]
    by_cases hp : p.1 = k
    · simp [hp, firstSome]
    · simp [hp]

theorem alookup_single (k : κ) (v : ν) (m : κ) :
    alookup [(k, v)] m = if k = m then some v else none := by
  rw [alookup_cons]
  rfl

theorem alookup_eq_none_iff (d : List (κ × ν)) (k : κ) :
    alookup d k = none ↔ akeyMem d k = false := by
  constructor
  · intro h
    rw [akeyMem_false_iff]
    intro hk
    rcases (akeyMem_iff_mem d k).mpr hk with h2
    simp only [akeyMem, List.any_eq_true, decide_eq_true_eq] at h2
    obtain ⟨p, hp, hpk⟩ := h2
    have : d.find? (fun p => decide (p.1 = k)) ≠ none := by
      intro hn
      exact (List.find?_eq_none.mp hn p hp) (by simp [hpk])
    rcases hf : d.find? (fun p => decide (p.1 = k)) with _ | q
    · exact absurd hf this
    · rw [alookup, hf] at h
      cases h
  · intro h
    rw [alookup, List.find?_eq_none.mpr]
    · rfl
    · intro p hp hpk
      simp only [decide_eq_true_eq] at hpk
      have : akeyMem d k = true := by
        simp only [akeyMem, List.any_eq_true, decide_eq_true_eq]
        exact ⟨p, hp, hpk⟩
      rw [h] at this
      cases this

theorem akeys_aput (d : List (κ × ν)) (k : κ) (v : ν) :
    akeys (aput d k v) = if akeyMem d k then akeys d else akeys d ++ [k] := by
  by_cases h : akeyMem d k
  · rw [aput, if_pos h, if_pos h, akeys_aset]
  · rw [aput, if_neg h, if_neg h]
    simp [akeys]

theorem alookup_aput (d : List (κ × ν)) (k : κ) (v : ν) (m : κ) :
    alookup (aput d k v) m = if m = k then some v else alookup d m := by
  by_cases h : akeyMem d k
  · rw [aput, if_pos h, alookup_aset]
    by_cases hm : m = k <;> simp [hm, h]
  · rw [aput, if_neg h, alookup_append, alookup_single]
    by_cases hm : m = k
    · have hnone : alookup d k = none := (alookup_eq_none_iff d k).mpr (by simpa using h)
      rw [hm, hnone]
      simp [firstSome]
    · have hkm : ¬ ((k : κ) = m) := fun hh => hm hh.symm
      rw [if_neg hkm, if_neg hm]
      exact firstSome_none_right _

theorem alookup_some_mem {d : List (κ × ν)} {k : κ} {v : ν} (h : alookup d k = some v) :
    (k, v) ∈ d := by
  rw [alookup] at h
  rcases hf : d.find? (fun p => decide (p.1 = k)) with _ | q
  · rw [hf] at h
    cases h
  · rw [hf] at h
    have hq1 : q.1 = k := by simpa using List.find?_some hf
    have hq2 : q.2 = v := Option.some.inj h
    have hmem := List.mem_of_find?_eq_some hf
    have hkv : ((k, v) : κ × ν) = q := Prod.ext hq1.symm hq2.symm
    rw [hkv]
    exact hmem

theorem mem_alookup_of_nodup {d : List (κ × ν)} (hn : (akeys d).Nodup) {k : κ} {v : ν}
    (h : (k, v) ∈ d) : alookup d k = some v := by
  induction d with
  | nil => cases h
  | cons p rest ih =>
    rw [alookup_cons]
    rcases List.mem_cons.mp h with h1 | h1
    · rw [← h1]
      simp
    · have hk : k ∈ akeys rest := List.mem_map.mpr ⟨(k, v), h1, rfl⟩
      have hp1 : ¬ (p.1 = k) := by
        intro he
        rw [akeys, List.map_cons] at hn
        exact (List.nodup_cons.mp hn).1 (he ▸ hk)
      rw [if_neg hp1]
      exact ih ((by rw [akeys, List.map_cons] at hn; exact (List.nodup_cons.mp hn).2)) h1

theorem aext {a : List (κ × ν)} :
    ∀ {b : List (κ × ν)}, akeys a = akeys b → (akeys a).Nodup →
      (∀ m, alookup a m = alookup b m) → a = b := by
  induction a with
  | nil =>
    intro b hk _ _
    have hb : akeys b = [] := hk.symm
    rw [akeys, List.map_eq_nil_iff] at hb
    rw [hb]
  | cons p a1 ih =>
    intro b hk hn hl
    cases b with
    | nil =>
      simp [akeys] at hk
    | cons q b1 =>
      simp only [akeys, List.map_cons, List.cons.injEq] at hk
      obtain ⟨hpq, htl⟩ := hk
      have hv : p.2 = q.2 := by
        have h1 := hl p.1
        rw [alookup_cons, alookup_cons, if_pos rfl, if_pos hpq.symm] at h1
        exact Option.some.inj h1
      have hhead : p = q := Prod.ext hpq hv
      have hn1 : (akeys a1).Nodup := by
        rw [akeys, List.map_cons] at hn
        exact (List.nodup_cons.mp hn).2
      have hnot : p.1 ∉ akeys a1 := by
        rw [akeys, List.map_cons] at hn
        exact (List.nodup_cons.mp hn).1
      have hkeys : akeys a1 = akeys b1 := htl
      have htail : a1 = b1 := by
        refine ih hkeys hn1 ?_
        intro m
        by_cases hm : p.1 = m
        · have h1 : alookup a1 m = none := by
            rw [alookup_eq_none_iff, akeyMem_false_iff, ← hm]
            exact hnot
          have h2 : alookup b1 m = none := by
            rw [alookup_eq_none_iff, akeyMem_false_iff, ← hm, ← hkeys]
            exact hnot
          rw [h1, h2]
        · have h1 := hl m
          rw [alookup_cons, alookup_cons, if_neg hm, if_neg (hpq ▸ hm)] at h1
          exact h1
      rw [hhead, htail]

theorem akeyMem_append (d1 d2 : List (κ × ν)) (k : κ) :
    akeyMem (d1 ++ d2) k = (akeyMem d1 k || akeyMem d2 k) := by
  simp [akeyMem]

end AssocDictLemmas

theorem bool_eq_false {b : Bool} (h : ¬ b = true) : b = false := by
  cases b
  · rfl
  · exact absurd rfl h

theorem lastWithId_nil (k : Nat) : lastWithId [] k = none := rfl

theorem lastWithId_cons (x : Item) (rest : List Item) (k : Nat) :
    lastWithId (x :: rest) k =
      if x.item_id = k then some ((lastWithId rest k).getD x) else lastWithId rest k := by
  by_cases h : x.item_id = k
  · rw [lastWithId, List.filter_cons, if_pos (by simp [h]), List.getLast?_cons, if_pos h,
      lastWithId]
  · rw [lastWithId, List.filter_cons, if_neg (by simp [h]), if_neg h, lastWithId]

theorem alookup_buildDict (l : List Item) :
    ∀ (d : List (Nat × Item)) (k : Nat),
      alookup (buildDict d l) k = firstSome (lastWithId l k) (alookup d k) := by
  induction l with
  | nil =>
    intro d k
    rw [buildDict, List.foldl_nil, lastWithId_nil]
    rfl
  | cons x rest ih =>
    intro d k
    rw [show buildDict d (x :: rest) = buildDict (upsertItem d x) rest from rfl, ih,
      lastWithId_cons, upsertItem, alookup_aput]
    by_cases hx : x.item_id = k
    · rw [if_pos hx, if_pos hx.symm]
      cases hl : lastWithId rest k with
      | none => simp [firstSome]
      | some w => simp [firstSome]
    · rw [if_neg hx, if_neg (fun h => hx h.symm)]

theorem keysOk_nil : KeysOk [] := by
  intro p hp
  cases hp

theorem keysOk_upsertItem {d : List (Nat × Item)} (h : KeysOk d) (x : Item) :
    KeysOk (upsertItem d x) := by
  intro p hp
  rw [upsertItem, aput] at hp
  by_cases hm : akeyMem d x.item_id
  · rw [if_pos hm, aset] at hp
    obtain ⟨q, hq, hqe⟩ := List.mem_map.mp hp
    by_cases hq1 : q.1 = x.item_id
    · rw [if_pos hq1] at hqe
      rw [← hqe]
    · rw [if_neg hq1] at hqe
      rw [← hqe]
      exact h q hq
  · rw [if_neg hm] at hp
    rcases List.mem_append.mp hp with h1 | h1
    · exact h p h1
    · rw [List.mem_singleton.mp h1]

theorem keysOk_buildDict (l : List Item) :
    ∀ d : List (Nat × Item), KeysOk d → KeysOk (buildDict d l) := by
  induction l with
  | nil => intro d h; exact h
  | cons x rest ih =>
    intro d h
    exact ih (upsertItem d x) (keysOk_upsertItem h x)

theorem akeys_nodup_upsertItem {d : List (Nat × Item)} (h : (akeys d).Nodup) (x : Item) :
    (akeys (upsertItem d x)).Nodup := by
  rw [upsertItem, akeys_aput]
  by_cases hm : akeyMem d x.item_id
  · rw [if_pos hm]
    exact h
  · rw [if_neg hm]
    rw [List.nodup_append]
    refine ⟨h, List.nodup_singleton _, ?_⟩
    intro a ha hb
    rw [List.mem_singleton] at hb
    exact ((akeyMem_false_iff d x.item_id).mp (bool_eq_false hm)) (hb ▸ ha)

theorem akeys_nodup_buildDict (l : List Item) :
    ∀ d : List (Nat × Item), (akeys d).Nodup → (akeys (buildDict d l)).Nodup := by
  induction l with
  | nil => intro d h; exact h
  | cons x rest ih =>
    intro d h
    exact ih (upsertItem d x) (akeys_nodup_upsertItem h x)

theorem buildDict_of_fresh (l : List Item) :
    ∀ d : List (Nat × Item), (∀ x ∈ l, akeyMem d x.item_id = false) → (idsOf l).Nodup →
      buildDict d l = d ++ l.map (fun it => (it.item_id, it)) := by
  induction l with
  | nil => intro d _ _; simp [buildDict]
  | cons x rest ih =>
    intro d hf hn
    have hx : akeyMem d x.item_id = false := hf x (List.mem_cons_self x rest)
    have hup : upsertItem d x = d ++ [(x.item_id, x)] := by
      rw [upsertItem, aput, if_neg (by simp [hx])]
    have hxr : x.item_id ∉ idsOf rest := by
      have : (x.item_id :: idsOf rest).Nodup := hn
      exact (List.nodup_cons.mp this).1
    have hfresh : ∀ y ∈ rest, akeyMem (d ++ [(x.item_id, x)]) y.item_id = false := by
      intro y hy
      have h1 : akeyMem d y.item_id = false := hf y (List.mem_cons_of_mem _ hy)
      have h2 : ¬ (x.item_id = y.item_id) :=
        fun he => hxr (he ▸ List.mem_map.mpr ⟨y, hy, rfl⟩)
      rw [akeyMem_append, h1]
      simp [akeyMem, h2]
    calc buildDict d (x :: rest) = buildDict (upsertItem d x) rest := rfl
      _ = buildDict (d ++ [(x.item_id, x)]) rest := by rw [hup]
      _ = (d ++ [(x.item_id, x)]) ++ rest.map (fun it => (it.item_id, it)) :=
        ih _ hfresh ((List.nodup_cons.mp hn).2)
      _ = d ++ (x :: rest).map (fun it => (it.item_id, it)) := by simp

theorem applyNew_nil (d : List (Nat × Item)) : applyNew [] d = d := by
  simp [applyNew, lastWithId_nil]

theorem buildDict_applyNew (new : List Item) :
    ∀ d : List (Nat × Item), ∃ t : List (Nat × Item),
      buildDict d new = applyNew new d ++ t ∧
        ∀ p ∈ t, akeyMem d p.1 = false ∧ lastWithId new p.1 = some p.2 := by
  induction new with
  | nil =>
    intro d
    refine ⟨[], by simp [buildDict, applyNew_nil], ?_⟩
    intro p hp
    cases hp
  | cons x rest ih =>
    intro d
    by_cases hx : akeyMem d x.item_id = true
    · obtain ⟨t, ht, hprop⟩ := ih (upsertItem d x)
      have hkeys : akeys (upsertItem d x) = akeys d := by
        rw [upsertItem, akeys_aput, if_pos hx]
      refine ⟨t, ?_, ?_⟩
      · have happ : applyNew rest (upsertItem d x) = applyNew (x :: rest) d := by
          rw [upsertItem, aput, if_pos hx, aset, applyNew, applyNew, List.map_map]
          refine List.map_congr_left ?_
          intro p _
          by_cases hpk : p.1 = x.item_id
          · rw [Function.comp_apply, if_pos hpk, lastWithId_cons, if_pos hpk.symm]
            cases hl : lastWithId rest x.item_id with
            | none =>
              rw [show lastWithId rest p.1 = none from hpk ▸ hl]
              simp [hpk]
            | some w =>
              rw [show lastWithId rest p.1 = some w from hpk ▸ hl]
              simp [hpk]
          · rw [Function.comp_apply, if_neg hpk, lastWithId_cons,
              if_neg (fun h => hpk h.symm)]
        rw [show buildDict d (x :: rest) = buildDict (upsertItem d x) rest from rfl, ht, happ]
      · intro p hp
        obtain ⟨h1, h2⟩ := hprop p hp
        have h1d : akeyMem d p.1 = false := by
          have hmem := (akeyMem_false_iff _ _).mp h1
          rw [hkeys] at hmem
          exact bool_eq_false (fun hc => hmem ((akeyMem_iff_mem _ _).mp hc))
        have hne : ¬ (x.item_id = p.1) := by
          intro he
          have hxk : x.item_id ∈ akeys (upsertItem d x) := by
            rw [hkeys]
            exact (akeyMem_iff_mem _ _).mp hx
          exact ((akeyMem_false_iff _ _).mp h1) (he ▸ hxk)
        refine ⟨h1d, ?_⟩
        rw [lastWithId_cons, if_neg hne]
        exact h2
    · obtain ⟨t, ht, hprop⟩ := ih (upsertItem d x)
      have hup : upsertItem d x = d ++ [(x.item_id, x)] := by
        rw [upsertItem, aput, if_neg hx]
      refine ⟨(match lastWithId rest x.item_id with
        | some w => (x.item_id, w)
        | none => (x.item_id, x)) :: t, ?_, ?_⟩
      · rw [show buildDict d (x :: rest) = buildDict (upsertItem d x) rest from rfl, ht, hup,
          applyNew, List.map_append]
        have hone : List.map
            (fun p => match lastWithId rest p.1 with | some w => (p.1, w) | none => p)
            [(x.item_id, x)] =
            [(match lastWithId rest x.item_id with
              | some w => (x.item_id, w)
              | none => (x.item_id, x))] := by
          cases hl : lastWithId rest x.item_id <;> simp [hl]
        rw [hone]
        have hsame : List.map
            (fun p => match lastWithId rest p.1 with | some w => (p.1, w) | none => p) d =
            applyNew (x :: rest) d := by
          rw [applyNew]
          refine List.map_congr_left ?_
          intro p hp
          have hne : ¬ (x.item_id = p.1) := by
            intro he
            exact hx ((akeyMem_iff_mem _ _).mpr
              (by rw [he]; exact List.mem_map.mpr ⟨p, hp, rfl⟩))
          rw [lastWithId_cons, if_neg hne]
        rw [hsame]
        simp [List.append_assoc]
      · intro p hp
        rcases List.mem_cons.mp hp with h1 | h1
        · cases hl : lastWithId rest x.item_id with
          | some w =>
            rw [hl] at h1
            refine ⟨by rw [h1]; exact bool_eq_false hx, ?_⟩
            rw [h1, lastWithId_cons]
            simp [hl]
          | none =>
            rw [hl] at h1
            refine ⟨by rw [h1]; exact bool_eq_false hx, ?_⟩
            rw [h1, lastWithId_cons]
            simp [hl]
        · obtain ⟨h2, h3⟩ := hprop p h1
          rw [hup, akeyMem_append] at h2
          have h2both := Bool.or_eq_false_iff.mp h2
          have hxp : ¬ (x.item_id = p.1) := by
            intro he
            have : akeyMem [(x.item_id, x)] p.1 = true := by simp [akeyMem, he]
            rw [h2both.2] at this
            cases this
          refine ⟨h2both.1, ?_⟩
          rw [lastWithId_cons, if_neg hxp]
          exact h3

theorem lexLe_total (as : List Char) : ∀ bs : List Char, lexLe as bs = true ∨ lexLe bs as = true := by
  induction as with
  | nil => intro bs; left; rfl
  | cons a as1 ih =>
    intro bs
    cases bs with
    | nil => right; rfl
    | cons b bs1 =>
      by_cases hab : a = b
      · subst hab
        rcases ih bs1 with h | h
        · left
          simp only [lexLe, if_pos rfl]
          exact h
        · right
          simp only [lexLe, if_pos rfl]
          exact h
      · rcases lt_or_gt_of_ne hab with h | h
        · left
          simp only [lexLe, if_neg hab]
          exact decide_eq_true h
        · right
          simp only [lexLe, if_neg (Ne.symm hab)]
          exact decide_eq_true h

theorem lexLe_trans {as : List Char} :
    ∀ {bs cs : List Char}, lexLe as bs = true → lexLe bs cs = true → lexLe as cs = true := by
  induction as with
  | nil => intro bs cs _ _; rfl
  | cons a as1 ih =>
    intro bs cs h1 h2
    cases bs with
    | nil => simp [lexLe] at h1
    | cons b bs1 =>
      cases cs with
      | nil => simp [lexLe] at h2
      | cons c cs1 =>
        simp only [lexLe] at h1 h2 ⊢
        by_cases hab : a = b
        · subst hab
          rw [if_pos rfl] at h1
          by_cases hbc : a = c
          · rw [if_pos hbc] at h2 ⊢
            exact ih h1 h2
          · rw [if_neg hbc] at h2 ⊢
            exact h2
        · rw [if_neg hab] at h1
          have hlt1 : a < b := of_decide_eq_true h1
          by_cases hbc : b = c
          · subst hbc
            rw [if_neg hab]
            exact decide_eq_true hlt1
          · rw [if_neg hbc] at h2
            have hlt2 : b < c := of_decide_eq_true h2
            have hac : a < c := lt_trans hlt1 hlt2
            rw [if_neg (ne_of_lt hac)]
            exact decide_eq_true hac

theorem strLe_total (a b : String) : strLe a b = true ∨ strLe b a = true :=
  lexLe_total a.data b.data

theorem strLe_trans {a b c : String} (h1 : strLe a b = true) (h2 : strLe b c = true) :
    strLe a c = true :=
  lexLe_trans h1 h2

theorem insertDesc_perm (x : Item) (l : List Item) : (insertDesc x l).Perm (x :: l) := by
  induction l with
  | nil => exact List.Perm.refl _
  | cons y ys ih =>
    rw [insertDesc]
    by_cases h : strLe y.merged_at x.merged_at = true
    · rw [if_pos h]
    · rw [if_neg h]
      exact (ih.cons y).trans (List.Perm.swap x y ys)

theorem sortDesc_perm (l : List Item) : (sortDesc l).Perm l := by
  induction l with
  | nil => exact List.Perm.refl _
  | cons x xs ih =>
    have h1 : sortDesc (x :: xs) = insertDesc x (sortDesc xs) := rfl
    rw [h1]
    exact (insertDesc_perm x (sortDesc xs)).trans (ih.cons x)

theorem mem_sortDesc {l : List Item} {a : Item} : a ∈ sortDesc l ↔ a ∈ l :=
  (sortDesc_perm l).mem_iff

theorem insertDesc_sorted (x : Item) {l : List Item} (h : l.Pairwise descBy) :
    (insertDesc x l).Pairwise descBy := by
  induction l with
  | nil => simp [insertDesc]
  | cons y ys ih =>
    obtain ⟨hy, hys⟩ := List.pairwise_cons.mp h
    rw [insertDesc]
    by_cases hc : strLe y.merged_at x.merged_at = true
    · rw [if_pos hc]
      refine List.pairwise_cons.mpr ⟨?_, h⟩
      intro z hz
      rcases List.mem_cons.mp hz with h1 | h1
      · rw [h1]
        exact hc
      · exact strLe_trans (hy z h1) hc
    · rw [if_neg hc]
      refine List.pairwise_cons.mpr ⟨?_, ih hys⟩
      intro z hz
      have hz2 : z ∈ x :: ys := (insertDesc_perm x ys).mem_iff.mp hz
      rcases List.mem_cons.mp hz2 with h1 | h1
      · rw [h1]
        rcases strLe_total x.merged_at y.merged_at with h | h
        · exact h
        · exact absurd h hc
      · exact hy z h1

theorem sortDesc_sorted (l : List Item) : (sortDesc l).Pairwise descBy := by
  induction l with
  | nil => exact List.Pairwise.nil
  | cons x xs ih => exact insertDesc_sorted x ih

theorem sortDesc_of_sorted {l : List Item} (h : l.Pairwise descBy) : sortDesc l = l := by
  induction l with
  | nil => rfl
  | cons x xs ih =>
    obtain ⟨hx, hxs⟩ := List.pairwise_cons.mp h
    have h1 : sortDesc (x :: xs) = insertDesc x (sortDesc xs) := rfl
    rw [h1, ih hxs]
    cases xs with
    | nil => rfl
    | cons y ys =>
      have hc : strLe y.merged_at x.merged_at = true := hx y (List.mem_cons_self y ys)
      rw [insertDesc, if_pos hc]

theorem mergeGroup_eq (existing newItems : List Item) (cutoff : String) :
    mergeGroup existing newItems cutoff =
      sortDesc (((buildDict (buildDict [] existing) newItems).map Prod.snd).filter
        (passesCutoff cutoff)) := rfl

theorem passes_of_mem_mergeGroup {existing newItems : List Item} {cutoff : String} {it : Item}
    (h : it ∈ mergeGroup existing newItems cutoff) : passesCutoff cutoff it = true := by
  rw [mergeGroup_eq] at h
  exact List.of_mem_filter (mem_sortDesc.mp h)

theorem sorted_mergeGroup (existing newItems : List Item) (cutoff : String) :
    (mergeGroup existing newItems cutoff).Pairwise descBy := by
  rw [mergeGroup_eq]
  exact sortDesc_sorted _

theorem idsOf_values_eq_akeys {d : List (Nat × Item)} (h : KeysOk d) :
    idsOf (d.map Prod.snd) = akeys d := by
  rw [idsOf, akeys, List.map_map]
  refine List.map_congr_left ?_
  intro p hp
  exact (h p hp).symm

theorem idsOf_nodup_mergeGroup (existing newItems : List Item) (cutoff : String) :
    (idsOf (mergeGroup existing newItems cutoff)).Nodup := by
  have hK : KeysOk (buildDict (buildDict [] existing) newItems) :=
    keysOk_buildDict newItems _ (keysOk_buildDict existing _ keysOk_nil)
  have hN : (akeys (buildDict (buildDict [] existing) newItems)).Nodup :=
    akeys_nodup_buildDict newItems _ (akeys_nodup_buildDict existing _ List.nodup_nil)
  have hv : (idsOf ((buildDict (buildDict [] existing) newItems).map Prod.snd)).Nodup := by
    rw [idsOf_values_eq_akeys hK]
    exact hN
  have hf : (List.map (fun it => it.item_id)
      (((buildDict (buildDict [] existing) newItems).map Prod.snd).filter
        (passesCutoff cutoff))).Nodup :=
    ((List.filter_sublist _).map _).nodup hv
  rw [mergeGroup_eq]
  show (List.map (fun it => it.item_id) (sortDesc _)).Nodup
  exact (((sortDesc_perm _).map (fun it => it.item_id)).symm.nodup hf)

theorem eq_of_mem_ids_nodup {l : List Item} (hn : (idsOf l).Nodup) {a b : Item}
    (ha : a ∈ l) (hb : b ∈ l) (h : a.item_id = b.item_id) : a = b :=
  List.inj_on_of_nodup_map hn ha hb h

theorem findItem_eq_some_of_mem {l : List Item} (hn : (idsOf l).Nodup) {r : Item} {k : Nat}
    (hr : r ∈ l) (hk : r.item_id = k) : findItem l k = some r := by
  cases hf : findItem l k with
  | none =>
    rw [findItem, List.find?_eq_none] at hf
    exact absurd (by simp [hk]) (hf r hr)
  | some a =>
    rw [findItem] at hf
    have ha1 : a.item_id = k := by simpa using List.find?_some hf
    have ha2 := List.mem_of_find?_eq_some hf
    rw [eq_of_mem_ids_nodup hn ha2 hr (ha1.trans hk.symm)]

theorem findItem_eq_none {l : List Item} {k : Nat} (h : ∀ x ∈ l, ¬ x.item_id = k) :
    findItem l k = none := by
  rw [findItem, List.find?_eq_none]
  intro x hx
  simp [h x hx]

theorem lastWithId_eq_findItem {l : List Item} (hn : (idsOf l).Nodup) (k : Nat) :
    lastWithId l k = findItem l k := by
  induction l with
  | nil => rfl
  | cons x rest ih =>
    have hn0 : (x.item_id :: idsOf rest).Nodup := hn
    have hn2 : (idsOf rest).Nodup := (List.nodup_cons.mp hn0).2
    rw [lastWithId_cons, findItem]
    by_cases hx : x.item_id = k
    · rw [if_pos hx, List.find?_cons_of_pos _ (by simp [hx])]
      have hnone : lastWithId rest k = none := by
        rw [lastWithId, List.getLast?_eq_none_iff, List.filter_eq_nil_iff]
        intro a ha hc
        have hak : a.item_id = k := by simpa using hc
        refine (List.nodup_cons.mp hn0).1 ?_
        have hxa : x.item_id = a.item_id := hx.trans hak.symm
        rw [hxa]
        exact List.mem_map.mpr ⟨a, ha, rfl⟩
      rw [hnone]
      rfl
    · rw [if_neg hx, List.find?_cons_of_neg _ (by simp [hx])]
      exact ih hn2

theorem alookup_mergeDict (existing newItems : List Item) (k : Nat) :
    alookup (buildDict (buildDict [] existing) newItems) k =
      firstSome (lastWithId newItems k) (lastWithId existing k) := by
  rw [alookup_buildDict, alookup_buildDict]
  rw [show alookup ([] : List (Nat × Item)) k = none from rfl, firstSome_none_right]

theorem mergeGroup_idem (existing newItems : List Item) (cutoff : String) :
    mergeGroup (mergeGroup existing newItems cutoff) newItems cutoff =
      mergeGroup existing newItems cutoff := by
  set D1 := buildDict (buildDict [] existing) newItems with hD1
  set L1 := mergeGroup existing newItems cutoff with hL1
  have hK1 : KeysOk D1 := keysOk_buildDict newItems _ (keysOk_buildDict existing _ keysOk_nil)
  have hN1 : (akeys D1).Nodup :=
    akeys_nodup_buildDict newItems _ (akeys_nodup_buildDict existing _ List.nodup_nil)
  have hids : (idsOf L1).Nodup := by
    rw [hL1]
    exact idsOf_nodup_mergeGroup existing newItems cutoff
  have hidsv : (idsOf (D1.map Prod.snd)).Nodup := by
    rw [idsOf_values_eq_akeys hK1]
    exact hN1
  have hmemL1 : ∀ x : Item, x ∈ L1 ↔ x ∈ (D1.map Prod.snd).filter (passesCutoff cutoff) := by
    intro x
    rw [hL1, mergeGroup_eq, hD1]
    exact mem_sortDesc
  have hDL : buildDict [] L1 = L1.map (fun it => (it.item_id, it)) := by
    have h0 := buildDict_of_fresh L1 [] (fun x _ => rfl) hids
    simpa using h0
  have hkeysDL : akeys (L1.map (fun it => (it.item_id, it))) = idsOf L1 := by
    rw [akeys, idsOf, List.map_map]
    rfl
  obtain ⟨t, ht, hprop⟩ := buildDict_applyNew newItems (buildDict [] L1)
  have happly : applyNew newItems (buildDict [] L1) = buildDict [] L1 := by
    rw [hDL, applyNew, List.map_map]
    refine List.map_congr_left ?_
    intro it hit
    cases hl : lastWithId newItems it.item_id with
    | none => simp [Function.comp, hl]
    | some w =>
      have hdl : alookup D1 it.item_id = some w := by
        rw [hD1, alookup_mergeDict, hl]
        rfl
      have hwpair := alookup_some_mem hdl
      have hwmem : w ∈ D1.map Prod.snd := List.mem_map.mpr ⟨(it.item_id, w), hwpair, rfl⟩
      have hwid : w.item_id = it.item_id := (hK1 _ hwpair).symm
      have hitv : it ∈ D1.map Prod.snd := List.mem_of_mem_filter ((hmemL1 it).mp hit)
      have hwi : w = it := eq_of_mem_ids_nodup hidsv hwmem hitv hwid
      simp [Function.comp, hl, hwi]
  have hvals : (buildDict (buildDict [] L1) newItems).map Prod.snd = L1 ++ t.map Prod.snd := by
    rw [ht, happly, hDL, List.map_append, List.map_map]
    have hco : (Prod.snd ∘ fun it : Item => (it.item_id, it)) = id := rfl
    rw [hco, List.map_id]
  have htailv : ∀ v ∈ t.map Prod.snd, passesCutoff cutoff v = false := by
    intro v hv
    obtain ⟨p, hp, hpe⟩ := List.mem_map.mp hv
    obtain ⟨hpk, hpl⟩ := hprop p hp
    rw [hDL] at hpk
    have hnotin : p.1 ∉ idsOf L1 := by
      have h2 := (akeyMem_false_iff _ _).mp hpk
      rw [hkeysDL] at h2
      exact h2
    apply bool_eq_false
    intro hpass
    have hdl : alookup D1 p.1 = some p.2 := by
      rw [hD1, alookup_mergeDict, hpl]
      rfl
    have hppair := alookup_some_mem hdl
    have hvmem : p.2 ∈ D1.map Prod.snd := List.mem_map.mpr ⟨(p.1, p.2), hppair, rfl⟩
    have hvid : p.2.item_id = p.1 := (hK1 _ hppair).symm
    have hinL1 : p.2 ∈ L1 :=
      (hmemL1 p.2).mpr (List.mem_filter.mpr ⟨hvmem, by rw [hpe]; exact hpass⟩)
    refine hnotin ?_
    rw [← hvid]
    exact List.mem_map.mpr ⟨p.2, hinL1, rfl⟩
  have hfin : mergeGroup L1 newItems cutoff =
      sortDesc (((buildDict (buildDict [] L1) newItems).map Prod.snd).filter
        (passesCutoff cutoff)) := rfl
  rw [hfin, hvals, List.filter_append]
  have h1 : L1.filter (passesCutoff cutoff) = L1 := by
    rw [List.filter_eq_self]
    intro a ha
    rw [hL1] at ha
    exact passes_of_mem_mergeGroup ha
  have h2 : (t.map Prod.snd).filter (passesCutoff cutoff) = [] := by
    rw [List.filter_eq_nil_iff]
    intro a ha
    rw [htailv a ha]
    simp
  rw [h1, h2, List.append_nil]
  apply sortDesc_of_sorted
  rw [hL1]
  exact sorted_mergeGroup existing newItems cutoff

theorem findItem_mergeGroup (existing newItems : List Item) (cutoff : String) (k : Nat) :
    findItem (mergeGroup existing newItems cutoff) k =
      passOpt cutoff (firstSome (lastWithId newItems k) (lastWithId existing k)) := by
  have hd : alookup (buildDict (buildDict [] existing) newItems) k =
      firstSome (lastWithId newItems k) (lastWithId existing k) := by
    rw [alookup_buildDict, alookup_buildDict]
    rw [show alookup ([] : List (Nat × Item)) k = none from rfl, firstSome_none_right]
  have hK : KeysOk (buildDict (buildDict [] existing) newItems) :=
    keysOk_buildDict newItems _ (keysOk_buildDict existing _ keysOk_nil)
  have hN : (akeys (buildDict (buildDict [] existing) newItems)).Nodup :=
    akeys_nodup_buildDict newItems _ (akeys_nodup_buildDict existing _ List.nodup_nil)
  cases h : firstSome (lastWithId newItems k) (lastWithId existing k) with
  | none =>
    show findItem (mergeGroup existing newItems cutoff) k = none
    apply findItem_eq_none
    intro x hx hxk
    have hx2 : x ∈ (buildDict (buildDict [] existing) newItems).map Prod.snd := by
      rw [mergeGroup_eq] at hx
      exact List.mem_of_mem_filter (mem_sortDesc.mp hx)
    obtain ⟨p, hp, hpe⟩ := List.mem_map.mp hx2
    have hsome : alookup (buildDict (buildDict [] existing) newItems) k = some x := by
      have hp1 : p.1 = k := by rw [hK p hp, hpe, hxk]
      have hpp : (p.1, p.2) ∈ buildDict (buildDict [] existing) newItems := by
        rw [Prod.mk.eta]
        exact hp
      have := mem_alookup_of_nodup hN hpp
      rw [hp1, hpe] at this
      exact this
    rw [hd, h] at hsome
    cases hsome
  | some r =>
    have hsome : alookup (buildDict (buildDict [] existing) newItems) k = some r := by
      rw [hd, h]
    have hmem : (k, r) ∈ buildDict (buildDict [] existing) newItems := alookup_some_mem hsome
    have hrid : r.item_id = k := (hK _ hmem).symm
    have hrv : r ∈ (buildDict (buildDict [] existing) newItems).map Prod.snd :=
      List.mem_map.mpr ⟨(k, r), hmem, rfl⟩
    show findItem (mergeGroup existing newItems cutoff) k =
      if passesCutoff cutoff r = true then some r else none
    by_cases hp : passesCutoff cutoff r = true
    · rw [if_pos hp]
      apply findItem_eq_some_of_mem (idsOf_nodup_mergeGroup existing newItems cutoff) ?_ hrid
      rw [mergeGroup_eq]
      exact mem_sortDesc.mpr (List.mem_filter.mpr ⟨hrv, hp⟩)
    · rw [if_neg hp]
      apply findItem_eq_none
      intro x hx hxk
      have hx2 : x ∈ (buildDict (buildDict [] existing) newItems).map Prod.snd := by
        rw [mergeGroup_eq] at hx
        exact List.mem_of_mem_filter (mem_sortDesc.mp hx)
      have hids : (idsOf ((buildDict (buildDict [] existing) newItems).map Prod.snd)).Nodup := by
        rw [idsOf_values_eq_akeys hK]
        exact hN
      have hxr : x = r := eq_of_mem_ids_nodup hids hx2 hrv (by rw [hxk, hrid])
      exact hp (hxr ▸ passes_of_mem_mergeGroup hx)

theorem findGroup?_processGroup (cutoff : String) (hg : List (String × List Item))
    (g : String × List Item) (m : String) :
    findGroup? (processGroup cutoff hg g) m =
      if m = g.1 then some (mergeGroup ((findGroup? hg g.1).getD []) g.2 cutoff)
      else findGroup? hg m := by
  by_cases hmem : hasGroup hg g.1 = true
  · have he : ensureGroup hg g.1 = hg := by rw [ensureGroup, if_pos hmem]
    show findGroup? (setItems (ensureGroup hg g.1) g.1
      (mergeGroup ((findGroup? (ensureGroup hg g.1) g.1).getD []) g.2 cutoff)) m = _
    rw [he, findGroup?, setItems, alookup_aset]
    by_cases hm : m = g.1
    · rw [if_pos hm, if_pos hm, if_pos (show akeyMem hg g.1 = true from hmem)]
    · rw [if_neg hm, if_neg hm]
      rfl
  · have hmem2 : hasGroup hg g.1 = false := bool_eq_false hmem
    have he : ensureGroup hg g.1 = hg ++ [(g.1, [])] := by rw [ensureGroup, if_neg hmem]
    have hnone : findGroup? hg g.1 = none := (alookup_eq_none_iff _ _).mpr hmem2
    have hl : findGroup? (hg ++ [(g.1, [])]) g.1 = some [] := by
      rw [findGroup?, alookup_append, alookup_single, if_pos rfl]
      rw [show alookup hg g.1 = none from hnone]
      rfl
    have hkey : akeyMem (hg ++ [(g.1, [])]) g.1 = true := by
      rw [akeyMem_append]
      have hone : akeyMem [(g.1, ([] : List Item))] g.1 = true := by simp [akeyMem]
      rw [hone, Bool.or_true]
    show findGroup? (setItems (ensureGroup hg g.1) g.1
      (mergeGroup ((findGroup? (ensureGroup hg g.1) g.1).getD []) g.2 cutoff)) m = _
    rw [he, hl, findGroup?, setItems, alookup_aset]
    by_cases hm : m = g.1
    · rw [if_pos hm, if_pos hkey, if_pos hm, hnone]
      rfl
    · rw [if_neg hm, if_neg hm, findGroup?, alookup_append, alookup_single,
        if_neg (fun hc => hm hc.symm), firstSome_none_right]

theorem akeys_processGroup (cutoff : String) (hg : List (String × List Item))
    (g : String × List Item) :
    akeys (processGroup cutoff hg g) =
      if hasGroup hg g.1 then akeys hg else akeys hg ++ [g.1] := by
  by_cases hmem : hasGroup hg g.1 = true
  · rw [if_pos hmem]
    have he : ensureGroup hg g.1 = hg := by rw [ensureGroup, if_pos hmem]
    show akeys (setItems (ensureGroup hg g.1) g.1 _) = akeys hg
    rw [he, setItems, akeys_aset]
  · rw [if_neg hmem]
    have he : ensureGroup hg g.1 = hg ++ [(g.1, [])] := by rw [ensureGroup, if_neg hmem]
    show akeys (setItems (ensureGroup hg g.1) g.1 _) = akeys hg ++ [g.1]
    rw [he, setItems, akeys_aset]
    simp [akeys]

theorem findGroup?_groupsAfter_not_mem (cutoff : String) (inc : List (String × List Item)) :
    ∀ (hg : List (String × List Item)) (m : String), m ∉ inc.map Prod.fst →
      findGroup? (groupsAfter cutoff hg inc) m = findGroup? hg m := by
  induction inc with
  | nil => intro hg m _; rfl
  | cons g rest ih =>
    intro hg m hm
    have hm1 : ¬ (m = g.1) := by
      intro he
      exact hm (by rw [List.map_cons, he]; exact List.mem_cons_self _ _)
    have hm2 : m ∉ rest.map Prod.fst := by
      intro hc
      exact hm (by rw [List.map_cons]; exact List.mem_cons_of_mem _ hc)
    have hstep : groupsAfter cutoff hg (g :: rest) =
        groupsAfter cutoff (processGroup cutoff hg g) rest := rfl
    rw [hstep, ih _ m hm2, findGroup?_processGroup, if_neg hm1]

theorem findGroup?_groupsAfter_mem (cutoff : String) (inc : List (String × List Item))
    (hn : (inc.map Prod.fst).Nodup) :
    ∀ (hg : List (String × List Item)) {n : String} {new : List Item}, (n, new) ∈ inc →
      findGroup? (groupsAfter cutoff hg inc) n =
        some (mergeGroup ((findGroup? hg n).getD []) new cutoff) := by
  induction inc with
  | nil => intro hg n new h; cases h
  | cons g rest ih =>
    intro hg n new h
    have hn0 : (g.1 :: rest.map Prod.fst).Nodup := by
      rw [← List.map_cons]
      exact hn
    have hn1 : g.1 ∉ rest.map Prod.fst := (List.nodup_cons.mp hn0).1
    have hn2 : (rest.map Prod.fst).Nodup := (List.nodup_cons.mp hn0).2
    have hstep : groupsAfter cutoff hg (g :: rest) =
        groupsAfter cutoff (processGroup cutoff hg g) rest := rfl
    rcases List.mem_cons.mp h with h1 | h1
    · have hng : n = g.1 := by rw [← h1]
      have hnew : new = g.2 := by rw [← h1]
      rw [hstep, findGroup?_groupsAfter_not_mem cutoff rest _ n (by rw [hng]; exact hn1),
        findGroup?_processGroup, if_pos hng, hng, hnew]
    · have hne : ¬ (n = g.1) := by
        intro he
        exact hn1 (he ▸ List.mem_map.mpr ⟨(n, new), h1, rfl⟩)
      rw [hstep, ih hn2 _ h1, findGroup?_processGroup, if_neg hne]

theorem akeys_groupsAfter_of_subset (cutoff : String) (inc : List (String × List Item)) :
    ∀ hg : List (String × List Item), (∀ p ∈ inc, p.1 ∈ akeys hg) →
      akeys (groupsAfter cutoff hg inc) = akeys hg := by
  induction inc with
  | nil => intro hg _; rfl
  | cons g rest ih =>
    intro hg hsub
    have hm : hasGroup hg g.1 = true :=
      (akeyMem_iff_mem _ _).mpr (hsub g (List.mem_cons_self g rest))
    have hpk : akeys (processGroup cutoff hg g) = akeys hg := by
      rw [akeys_processGroup, if_pos hm]
    have hstep : groupsAfter cutoff hg (g :: rest) =
        groupsAfter cutoff (processGroup cutoff hg g) rest := rfl
    have hsub2 : ∀ p ∈ rest, p.1 ∈ akeys (processGroup cutoff hg g) := by
      intro p hp
      rw [hpk]
      exact hsub p (List.mem_cons_of_mem _ hp)
    rw [hstep, ih _ hsub2, hpk]

theorem akeys_nodup_groupsAfter (cutoff : String) (inc : List (String × List Item)) :
    ∀ hg : List (String × List Item), (akeys hg).Nodup →
      (akeys (groupsAfter cutoff hg inc)).Nodup := by
  induction inc with
  | nil => intro hg h; exact h
  | cons g rest ih =>
    intro hg h
    apply ih
    rw [akeys_processGroup]
    by_cases hm : hasGroup hg g.1 = true
    · rw [if_pos hm]
      exact h
    · rw [if_neg hm]
      rw [List.nodup_append]
      refine ⟨h, List.nodup_singleton _, ?_⟩
      intro a ha hb
      rw [List.mem_singleton] at hb
      exact ((akeyMem_false_iff _ _).mp (bool_eq_false hm)) (hb ▸ ha)

theorem mergeStore_groups (incGroups : List (String × List Item)) (hist : Option Store)
    (now cutoff : String) (extra : Bool) (days : Nat) :
    (mergeStore incGroups hist now cutoff extra days).groups =
      groupsAfter cutoff (storeGroups hist) incGroups := by
  cases hist <;> rfl

theorem batchItems_of_mem_nodup {batch : List (String × List Item)}
    (hn : (batch.map Prod.fst).Nodup) {g : String} {new : List Item}
    (h : (g, new) ∈ batch) : batchItems batch g = new := by
  rw [batchItems, mem_alookup_of_nodup hn h]
  rfl

theorem batchItems_of_not_mem {batch : List (String × List Item)} {g : String}
    (h : g ∉ batch.map Prod.fst) : batchItems batch g = [] := by
  rw [batchItems, (alookup_eq_none_iff _ _).mpr
    (bool_eq_false fun hc => h ((akeyMem_iff_mem _ _).mp hc))]
  rfl

theorem foldl_runTotalsStep_retests (l : List Int) :
    ∀ a b c : Int, (l.foldl runTotalsStep (a, b, c)).2.1 = b + (l.map retestOfRuns).sum := by
  induction l with
  | nil => intro a b c; simp
  | cons x xs ih =>
    intro a b c
    simp only [List.foldl_cons, List.map_cons, List.sum_cons, runTotalsStep, retestOfRuns]
    rw [ih]
    ring

theorem itemAt_eq_of_findGroup {s : Store} {g : String} {items : List Item} (k : Nat)
    (h : findGroup? s.groups g = some items) : itemAt (some s) g k = findItem items k := by
  show (match findGroup? s.groups g with
    | some items => findItem items k
    | none => none) = findItem items k
  rw [h]

theorem itemAt_eq_none_of_findGroup {s : Store} {g : String} (k : Nat)
    (h : findGroup? s.groups g = none) : itemAt (some s) g k = none := by
  show (match findGroup? s.groups g with
    | some items => findItem items k
    | none => none) = none
  rw [h]

theorem passOpt_idem (c : String) (o : Option Item) : passOpt c (passOpt c o) = passOpt c o := by
  cases o with
  | none => rfl
  | some r =>
    show passOpt c (if passesCutoff c r = true then some r else none) =
      if passesCutoff c r = true then some r else none
    by_cases h : passesCutoff c r = true
    · rw [if_pos h]
      show (if passesCutoff c r = true then some r else none) = some r
      rw [if_pos h]
    · rw [if_neg h]
      rfl

theorem filter_id_eq_single {l : List Item} (hn : (idsOf l).Nodup) {k : Nat} {r : Item}
    (h : findItem l k = some r) :
    l.filter (fun it => decide (it.item_id = k)) = [r] := by
  induction l with
  | nil => cases h
  | cons x xs ih =>
    have hn0 : (x.item_id :: idsOf xs).Nodup := hn
    by_cases hx : x.item_id = k
    · rw [findItem, List.find?_cons_of_pos _ (by simp [hx])] at h
      rw [List.filter_cons, if_pos (by simp [hx])]
      have hnil : xs.filter (fun it => decide (it.item_id = k)) = [] := by
        rw [List.filter_eq_nil_iff]
        intro a ha hc
        have hak : a.item_id = k := by simpa using hc
        refine (List.nodup_cons.mp hn0).1 ?_
        have hxa : x.item_id = a.item_id := hx.trans hak.symm
        rw [hxa]
        exact List.mem_map.mpr ⟨a, ha, rfl⟩
      rw [hnil, Option.some.inj h]
    · rw [findItem, List.find?_cons_of_neg _ (by simp [hx])] at h
      rw [List.filter_cons, if_neg (by simp [hx])]
      exact ih (List.nodup_cons.mp hn0).2 h

/-- C2: re-running `merge` with the same increment batch against the
already-merged store returns a structurally identical store. Time is held
fixed (both runs see the same `now` and `cutoff`, as byte-for-byte equality
requires), and group names are unique, as JSON object keys always are. -/
theorem merge_idempotent (incGroups : List (String × List Item)) (hist : Option Store)
    (now cutoff : String) (extra : Bool) (days : Nat)
    (hinc : (incGroups.map Prod.fst).Nodup) (hhist : storeKeysNodup hist) :
    mergeData (some incGroups) (mergeData (some incGroups) hist now cutoff extra days)
        now cutoff extra days =
      mergeData (some incGroups) hist now cutoff extra days := by
  have hGnodup0 : (akeys (storeGroups hist)).Nodup := hhist
  show some (mergeStore incGroups (some (mergeStore incGroups hist now cutoff extra days))
      now cutoff extra days) =
    some (mergeStore incGroups hist now cutoff extra days)
  set S1 := mergeStore incGroups hist now cutoff extra days with hS1
  have hG : S1.groups = groupsAfter cutoff (storeGroups hist) incGroups := by
    rw [hS1]
    exact mergeStore_groups _ _ _ _ _ _
  have hnodup : (akeys S1.groups).Nodup := by
    rw [hG]
    exact akeys_nodup_groupsAfter _ _ _ hGnodup0
  have hsub : ∀ p ∈ incGroups, p.1 ∈ akeys S1.groups := by
    intro p hp
    have hpp : (p.1, p.2) ∈ incGroups := by
      rw [Prod.mk.eta]
      exact hp
    have hfp := findGroup?_groupsAfter_mem cutoff incGroups hinc (storeGroups hist) hpp
    rw [← hG] at hfp
    exact List.mem_map.mpr ⟨(p.1, _), alookup_some_mem hfp, rfl⟩
  have hkeys : akeys (groupsAfter cutoff S1.groups incGroups) = akeys S1.groups :=
    akeys_groupsAfter_of_subset cutoff incGroups S1.groups hsub
  have hGidem : groupsAfter cutoff S1.groups incGroups = S1.groups := by
    refine aext hkeys (by rw [hkeys]; exact hnodup) ?_
    intro m
    by_cases hm : m ∈ incGroups.map Prod.fst
    · obtain ⟨p, hp, hpe⟩ := List.mem_map.mp hm
      have hp2 : (m, p.2) ∈ incGroups := by
        have he : (m, p.2) = p := Prod.ext hpe.symm rfl
        rw [he]
        exact hp
      have hL := findGroup?_groupsAfter_mem cutoff incGroups hinc S1.groups hp2
      have hR : findGroup? S1.groups m =
          some (mergeGroup ((findGroup? (storeGroups hist) m).getD []) p.2 cutoff) := by
        rw [hG]
        exact findGroup?_groupsAfter_mem cutoff incGroups hinc _ hp2
      show findGroup? (groupsAfter cutoff S1.groups incGroups) m = findGroup? S1.groups m
      rw [hL, hR, Option.getD_some, mergeGroup_idem]
    · show findGroup? (groupsAfter cutoff S1.groups incGroups) m = findGroup? S1.groups m
      exact findGroup?_groupsAfter_not_mem cutoff incGroups S1.groups m hm
  have hfin : mergeStore incGroups (some S1) now cutoff extra days =
      { created_at := S1.created_at, days_analyzed := S1.days_analyzed,
        groups := groupsAfter cutoff S1.groups incGroups,
        last_updated := some now, cutoff_date := some cutoff,
        summary := some (calculateSummary
          (allStoreItems (groupsAfter cutoff S1.groups incGroups)) extra) } := rfl
  rw [hfin, hGidem, hS1]
  rfl

/-- Witness for C2 at a concrete increment and store. -/
theorem merge_idempotent_witness :
    mergeData (some incFresh) (mergeData (some incFresh) (some staleStore) now0 cutoff0 true 90)
        now0 cutoff0 true 90 =
      mergeData (some incFresh) (some staleStore) now0 cutoff0 true 90 :=
  merge_idempotent incFresh (some staleStore) now0 cutoff0 true 90 (by decide)
    (by unfold storeKeysNodup; decide)

/-- C1 counterexample: the retention filter runs only over the groups named
in the increment, so a stale record in an untouched group survives a merge
whose `cutoff_date` postdates it: group "g2" still holds `oldItem` although
`oldItem.merged_at < cutoff_date`. -/
theorem retention_counterexample :
    (mergeStore incFresh (some staleStore) now0 cutoff0 true 90).cutoff_date = some cutoff0 ∧
    findGroup? (mergeStore incFresh (some staleStore) now0 cutoff0 true 90).groups "g2" =
      some [oldItem] ∧
    passesCutoff cutoff0 oldItem = false := by
  refine ⟨rfl, by decide, by decide⟩

/-- C1 as amended: after `merge`, every record stored in a group that the
increment batch touches has `merged_at >= cutoff`, and groups absent from
the increment are left exactly as they were (so they may keep records older
than the new cutoff). -/
theorem retention_after_merge (incGroups : List (String × List Item)) (hist : Option Store)
    (now cutoff : String) (extra : Bool) (days : Nat)
    (hinc : (incGroups.map Prod.fst).Nodup) :
    (∀ (n : String) (new items : List Item), (n, new) ∈ incGroups →
      findGroup? (mergeStore incGroups hist now cutoff extra days).groups n = some items →
      ∀ it ∈ items, passesCutoff cutoff it = true) ∧
    (∀ m : String, m ∉ incGroups.map Prod.fst →
      findGroup? (mergeStore incGroups hist now cutoff extra days).groups m =
        findGroup? (storeGroups hist) m) := by
  constructor
  · intro n new items hmem hfind it hit
    rw [mergeStore_groups, findGroup?_groupsAfter_mem cutoff incGroups hinc _ hmem] at hfind
    have hitems : items =
        mergeGroup ((findGroup? (storeGroups hist) n).getD []) new cutoff :=
      (Option.some.inj hfind).symm
    rw [hitems] at hit
    exact passes_of_mem_mergeGroup hit
  · intro m hm
    rw [mergeStore_groups]
    exact findGroup?_groupsAfter_not_mem cutoff incGroups _ m hm

/-- Witness for the amended C1: a record surviving in a touched group is
in-window, and an untouched group is returned untouched. -/
theorem retention_after_merge_witness :
    passesCutoff cutoff0 freshItem = true ∧
    findGroup? (mergeStore incFresh (some staleStore) now0 cutoff0 true 90).groups "nope" =
      findGroup? (storeGroups (some staleStore)) "nope" :=
  ⟨(retention_after_merge incFresh (some staleStore) now0 cutoff0 true 90 (by decide)).1
      "g1" [freshItem] [freshItem] (by decide) (by decide) freshItem (by decide),
   (retention_after_merge incFresh (some staleStore) now0 cutoff0 true 90 (by decide)).2
      "nope" (by decide)⟩

/-- C7: after a merge every group's stored list is sorted by `merged_at`
non-increasing, given that every group of the prior store already was —
which holds for the absent store and is maintained by every merge, the only
operation that writes stores. -/
theorem ordering_after_merge (incGroups : List (String × List Item)) (hist : Option Store)
    (now cutoff : String) (extra : Bool) (days : Nat)
    (hinc : (incGroups.map Prod.fst).Nodup)
    (hhist : ∀ (n : String) (items : List Item),
      findGroup? (storeGroups hist) n = some items → items.Pairwise descBy) :
    ∀ (n : String) (items : List Item),
      findGroup? (mergeStore incGroups hist now cutoff extra days).groups n = some items →
        items.Pairwise descBy := by
  intro n items hfind
  rw [mergeStore_groups] at hfind
  by_cases hm : n ∈ incGroups.map Prod.fst
  · obtain ⟨p, hp, hpe⟩ := List.mem_map.mp hm
    have hp2 : (n, p.2) ∈ incGroups := by
      have he : (n, p.2) = p := Prod.ext hpe.symm rfl
      rw [he]
      exact hp
    rw [findGroup?_groupsAfter_mem cutoff incGroups hinc _ hp2] at hfind
    have hitems : items =
        mergeGroup ((findGroup? (storeGroups hist) n).getD []) p.2 cutoff :=
      (Option.some.inj hfind).symm
    rw [hitems]
    exact sorted_mergeGroup _ _ _
  · rw [findGroup?_groupsAfter_not_mem cutoff incGroups _ n hm] at hfind
    exact hhist n items hfind

/-- Witness for C7 at a concrete merge with two surviving records. -/
theorem ordering_after_merge_witness :
    ([freshItem, lwwOlder] : List Item).Pairwise descBy :=
  ordering_after_merge [("g1", [freshItem, lwwOlder])] none now0 cutoff0 true 90 (by decide)
    (fun n items h => Option.noConfusion h)
    "g1" [freshItem, lwwOlder] (by decide)

/-- C3 counterexample: the incoming record for id 42 is older than the
cutoff, so instead of replacing the existing record it is dropped outright —
the merged group holds NO record for id 42, not exactly one equal to the
incoming one. -/
theorem upsert_replace_counterexample :
    findGroup? (mergeStore inc42 (some store42) now0 cutoff0 true 90).groups "g" = some [] ∧
    itemAt (mergeData (some inc42) (some store42) now0 cutoff0 true 90) "g" 42 = none := by
  refine ⟨by decide, by decide⟩

/-- C3 as amended: the upsert is a total replace by `item_id`, provided the
incoming record (the last record with that id in the increment group)
passes the retention cutoff; the merged group then holds exactly one record
with that id and it equals the incoming record wholesale. An incoming
record older than the cutoff is dropped instead. -/
theorem upsert_replace (incGroups : List (String × List Item)) (hist : Option Store)
    (now cutoff : String) (extra : Bool) (days : Nat)
    (hinc : (incGroups.map Prod.fst).Nodup) {n : String} {new : List Item} {r : Item}
    (hgm : (n, new) ∈ incGroups) (hr : lastWithId new r.item_id = some r)
    (hpass : passesCutoff cutoff r = true) :
    ∀ items : List Item,
      findGroup? (mergeStore incGroups hist now cutoff extra days).groups n = some items →
        items.filter (fun it => decide (it.item_id = r.item_id)) = [r] := by
  intro items hfind
  rw [mergeStore_groups, findGroup?_groupsAfter_mem cutoff incGroups hinc _ hgm] at hfind
  have hitems : items =
      mergeGroup ((findGroup? (storeGroups hist) n).getD []) new cutoff :=
    (Option.some.inj hfind).symm
  have hfi : findItem items r.item_id = some r := by
    rw [hitems, findItem_mergeGroup, hr]
    show (if passesCutoff cutoff r = true then some r else none) = some r
    rw [if_pos hpass]
  have hnodup : (idsOf items).Nodup := by
    rw [hitems]
    exact idsOf_nodup_mergeGroup _ _ _
  exact filter_id_eq_single hnodup hfi

/-- Witness for the amended C3: the in-window incoming record for id 42
replaces the existing one, leaving exactly one record. -/
theorem upsert_replace_witness :
    ([ex42ok] : List Item).filter (fun it => decide (it.item_id = ex42ok.item_id)) = [ex42ok] :=
  @upsert_replace inc42ok (some store42) now0 cutoff0 true 90 (by decide)
    "g" [ex42ok] ex42ok (by decide) (by decide) (by decide) [ex42ok] (by decide)

/-- C4 counterexample: the existing record for id 7 has the NEWER
`merged_at`, yet the merged store keeps the incoming, older record — the
newer-`merged_at` record does not win. -/
theorem lww_counterexample :
    itemAt (mergeData (some lwwInc) (some lwwStore) now0 cutoff0 true 90) "g" 7 =
      some lwwOlder ∧
    strLe lwwNewer.merged_at lwwOlder.merged_at = false ∧
    lwwOlder ≠ lwwNewer ∧
    passesCutoff cutoff0 lwwOlder = true ∧
    passesCutoff cutoff0 lwwNewer = true := by
  refine ⟨by decide, by decide, by decide, by decide, by decide⟩

/-- C4 as amended: whenever an existing record and an incoming record with
the same id are combined, the incoming record (the one merged last) wins
wholesale, regardless of which of the two has the newer `merged_at` —
last-write-wins by batch order, not by timestamp. -/
theorem lww_by_batch_order (incGroups : List (String × List Item)) (hist : Option Store)
    (now cutoff : String) (extra : Bool) (days : Nat)
    (hinc : (incGroups.map Prod.fst).Nodup) {n : String} {new : List Item} {r e : Item}
    (hgm : (n, new) ∈ incGroups) (hr : lastWithId new r.item_id = some r)
    (hpass : passesCutoff cutoff r = true)
    (_he : e ∈ (findGroup? (storeGroups hist) n).getD []) (_hei : e.item_id = r.item_id) :
    itemAt (mergeData (some incGroups) hist now cutoff extra days) n r.item_id = some r := by
  have hfg : findGroup? (mergeStore incGroups hist now cutoff extra days).groups n =
      some (mergeGroup ((findGroup? (storeGroups hist) n).getD []) new cutoff) := by
    rw [mergeStore_groups]
    exact findGroup?_groupsAfter_mem cutoff incGroups hinc _ hgm
  have hstep : itemAt (mergeData (some incGroups) hist now cutoff extra days) n r.item_id =
      findItem (mergeGroup ((findGroup? (storeGroups hist) n).getD []) new cutoff)
        r.item_id :=
    itemAt_eq_of_findGroup r.item_id hfg
  rw [hstep, findItem_mergeGroup, hr]
  show (if passesCutoff cutoff r = true then some r else none) = some r
  rw [if_pos hpass]

/-- Witness for the amended C4: the older incoming record for id 7 wins
over the newer stored one. -/
theorem lww_by_batch_order_witness :
    itemAt (mergeData (some lwwInc) (some lwwStore) now0 cutoff0 true 90) "g"
      lwwOlder.item_id = some lwwOlder :=
  @lww_by_batch_order lwwInc (some lwwStore) now0 cutoff0 true 90 (by decide)
    "g" [lwwOlder] lwwOlder lwwNewer (by decide) (by decide) (by decide) (by decide)
    (by decide)

/-- C5 counterexample: two batches with disjoint identities (ids 1 and 2,
same group, equal `merged_at`) produce different stores depending on merge
order — records tied on `merged_at` keep the order in which they were
merged — so merge-order independence fails even for disjoint batches. -/
theorem merge_order_counterexample :
    mergeData (some batchB) (mergeData (some batchA) none now0 cutoff0 true 90)
        now0 cutoff0 true 90 ≠
      mergeData (some batchA) (mergeData (some batchB) none now0 cutoff0 true 90)
        now0 cutoff0 true 90 := by
  intro h
  have h2 := congrArg (fun st => match st with
    | some s => findGroup? s.groups "g"
    | none => (none : Option (List Item))) h
  exact absurd h2 (by decide)

/-- C5 as amended: merging A then B and B then A agree on each group's
id-to-record content whenever A and B have disjoint identities or agree on
the final record of every shared identity (the stored lists may still
differ in the order of records tied on `merged_at`, and the group map in
group order, so the stores need not be byte-identical); and on a shared
identity the batch merged LAST always wins, regardless of which record has
the newer `merged_at`. -/
theorem merge_order_content (A B : List (String × List Item)) (hist : Option Store)
    (now cutoff : String) (extra : Bool) (days : Nat)
    (hA : (A.map Prod.fst).Nodup) (hB : (B.map Prod.fst).Nodup) :
    ((∀ (g : String) (k : Nat),
        lastWithId (batchItems A g) k = none ∨ lastWithId (batchItems B g) k = none ∨
          lastWithId (batchItems A g) k = lastWithId (batchItems B g) k) →
      ∀ (g : String) (k : Nat),
        itemAt (mergeData (some B) (mergeData (some A) hist now cutoff extra days)
            now cutoff extra days) g k =
          itemAt (mergeData (some A) (mergeData (some B) hist now cutoff extra days)
            now cutoff extra days) g k) ∧
    (∀ (g : String) (new : List Item) (k : Nat) (r : Item), (g, new) ∈ B →
      lastWithId new k = some r → passesCutoff cutoff r = true →
      itemAt (mergeData (some B) (mergeData (some A) hist now cutoff extra days)
          now cutoff extra days) g k = some r) := by
  have hsgAB : (mergeStore B (some (mergeStore A hist now cutoff extra days))
      now cutoff extra days).groups =
      groupsAfter cutoff (groupsAfter cutoff (storeGroups hist) A) B := by
    rw [mergeStore_groups,
      show storeGroups (some (mergeStore A hist now cutoff extra days)) =
        (mergeStore A hist now cutoff extra days).groups from rfl,
      mergeStore_groups]
  have hsgBA : (mergeStore A (some (mergeStore B hist now cutoff extra days))
      now cutoff extra days).groups =
      groupsAfter cutoff (groupsAfter cutoff (storeGroups hist) B) A := by
    rw [mergeStore_groups,
      show storeGroups (some (mergeStore B hist now cutoff extra days)) =
        (mergeStore B hist now cutoff extra days).groups from rfl,
      mergeStore_groups]
  constructor
  · intro hagr g k
    show itemAt (some (mergeStore B (some (mergeStore A hist now cutoff extra days))
        now cutoff extra days)) g k =
      itemAt (some (mergeStore A (some (mergeStore B hist now cutoff extra days))
        now cutoff extra days)) g k
    by_cases hgA : g ∈ A.map Prod.fst <;> by_cases hgB : g ∈ B.map Prod.fst
    · obtain ⟨pa, hpa, hpae⟩ := List.mem_map.mp hgA
      have hpa2 : (g, pa.2) ∈ A := by
        have he : (g, pa.2) = pa := Prod.ext hpae.symm rfl
        rw [he]
        exact hpa
      obtain ⟨pb, hpb, hpbe⟩ := List.mem_map.mp hgB
      have hpb2 : (g, pb.2) ∈ B := by
        have he : (g, pb.2) = pb := Prod.ext hpbe.symm rfl
        rw [he]
        exact hpb
      have hfAB : findGroup? (mergeStore B (some (mergeStore A hist now cutoff extra days))
          now cutoff extra days).groups g =
          some (mergeGroup (mergeGroup ((findGroup? (storeGroups hist) g).getD [])
            pa.2 cutoff) pb.2 cutoff) := by
        rw [hsgAB, findGroup?_groupsAfter_mem cutoff B hB _ hpb2,
          findGroup?_groupsAfter_mem cutoff A hA _ hpa2]
        rfl
      have hfBA : findGroup? (mergeStore A (some (mergeStore B hist now cutoff extra days))
          now cutoff extra days).groups g =
          some (mergeGroup (mergeGroup ((findGroup? (storeGroups hist) g).getD [])
            pb.2 cutoff) pa.2 cutoff) := by
        rw [hsgBA, findGroup?_groupsAfter_mem cutoff A hA _ hpa2,
          findGroup?_groupsAfter_mem cutoff B hB _ hpb2]
        rfl
      rw [itemAt_eq_of_findGroup k hfAB, itemAt_eq_of_findGroup k hfBA,
        findItem_mergeGroup, findItem_mergeGroup,
        lastWithId_eq_findItem (idsOf_nodup_mergeGroup _ pa.2 cutoff) k,
        lastWithId_eq_findItem (idsOf_nodup_mergeGroup _ pb.2 cutoff) k,
        findItem_mergeGroup, findItem_mergeGroup]
      have hag := hagr g k
      rw [batchItems_of_mem_nodup hA hpa2, batchItems_of_mem_nodup hB hpb2] at hag
      cases hLa : lastWithId pa.2 k with
      | none =>
        cases hLb : lastWithId pb.2 k with
        | none => rfl
        | some rb => exact (passOpt_idem cutoff (some rb)).symm
      | some ra =>
        cases hLb : lastWithId pb.2 k with
        | none => exact passOpt_idem cutoff (some ra)
        | some rb =>
          rw [hLa, hLb] at hag
          rcases hag with hc | hc | hc
          · exact Option.noConfusion hc
          · exact Option.noConfusion hc
          · have hrr : ra = rb := Option.some.inj hc
            rw [hrr]
    · obtain ⟨pa, hpa, hpae⟩ := List.mem_map.mp hgA
      have hpa2 : (g, pa.2) ∈ A := by
        have he : (g, pa.2) = pa := Prod.ext hpae.symm rfl
        rw [he]
        exact hpa
      have hfAB : findGroup? (mergeStore B (some (mergeStore A hist now cutoff extra days))
          now cutoff extra days).groups g =
          some (mergeGroup ((findGroup? (storeGroups hist) g).getD []) pa.2 cutoff) := by
        rw [hsgAB, findGroup?_groupsAfter_not_mem cutoff B _ g hgB]
        exact findGroup?_groupsAfter_mem cutoff A hA _ hpa2
      have hfBA : findGroup? (mergeStore A (some (mergeStore B hist now cutoff extra days))
          now cutoff extra days).groups g =
          some (mergeGroup ((findGroup? (storeGroups hist) g).getD []) pa.2 cutoff) := by
        rw [hsgBA, findGroup?_groupsAfter_mem cutoff A hA _ hpa2,
          findGroup?_groupsAfter_not_mem cutoff B _ g hgB]
      rw [itemAt_eq_of_findGroup k hfAB, itemAt_eq_of_findGroup k hfBA]
    · obtain ⟨pb, hpb, hpbe⟩ := List.mem_map.mp hgB
      have hpb2 : (g, pb.2) ∈ B := by
        have he : (g, pb.2) = pb := Prod.ext hpbe.symm rfl
        rw [he]
        exact hpb
      have hfAB : findGroup? (mergeStore B (some (mergeStore A hist now cutoff extra days))
          now cutoff extra days).groups g =
          some (mergeGroup ((findGroup? (storeGroups hist) g).getD []) pb.2 cutoff) := by
        rw [hsgAB, findGroup?_groupsAfter_mem cutoff B hB _ hpb2,
          findGroup?_groupsAfter_not_mem cutoff A _ g hgA]
      have hfBA : findGroup? (mergeStore A (some (mergeStore B hist now cutoff extra days))
          now cutoff extra days).groups g =
          some (mergeGroup ((findGroup? (storeGroups hist) g).getD []) pb.2 cutoff) := by
        rw [hsgBA, findGroup?_groupsAfter_not_mem cutoff A _ g hgA]
        exact findGroup?_groupsAfter_mem cutoff B hB _ hpb2
      rw [itemAt_eq_of_findGroup k hfAB, itemAt_eq_of_findGroup k hfBA]
    · have h1 : findGroup? (mergeStore B (some (mergeStore A hist now cutoff extra days))
          now cutoff extra days).groups g = findGroup? (storeGroups hist) g := by
        rw [hsgAB, findGroup?_groupsAfter_not_mem cutoff B _ g hgB,
          findGroup?_groupsAfter_not_mem cutoff A _ g hgA]
      have h2 : findGroup? (mergeStore A (some (mergeStore B hist now cutoff extra days))
          now cutoff extra days).groups g = findGroup? (storeGroups hist) g := by
        rw [hsgBA, findGroup?_groupsAfter_not_mem cutoff A _ g hgA,
          findGroup?_groupsAfter_not_mem cutoff B _ g hgB]
      cases hH : findGroup? (storeGroups hist) g with
      | some items =>
        rw [itemAt_eq_of_findGroup k (h1.trans hH), itemAt_eq_of_findGroup k (h2.trans hH)]
      | none =>
        rw [itemAt_eq_none_of_findGroup k (h1.trans hH),
          itemAt_eq_none_of_findGroup k (h2.trans hH)]
  · intro g new k r hgB hr hpass
    show itemAt (some (mergeStore B (some (mergeStore A hist now cutoff extra days))
        now cutoff extra days)) g k = some r
    have hfg : findGroup? (mergeStore B (some (mergeStore A hist now cutoff extra days))
        now cutoff extra days).groups g =
        some (mergeGroup
          ((findGroup? (groupsAfter cutoff (storeGroups hist) A) g).getD []) new cutoff) := by
      rw [hsgAB]
      exact findGroup?_groupsAfter_mem cutoff B hB _ hgB
    rw [itemAt_eq_of_findGroup k hfg, findItem_mergeGroup, hr]
    show (if passesCutoff cutoff r = true then some r else none) = some r
    rw [if_pos hpass]

/-- Witness for the amended C5: the disjoint tie batches agree on content at
id 1 whichever is merged first, and the batch merged last wins at its own
id. -/
theorem merge_order_content_witness :
    itemAt (mergeData (some batchB) (mergeData (some batchA) none now0 cutoff0 true 90)
        now0 cutoff0 true 90) "g" 1 =
      itemAt (mergeData (some batchA) (mergeData (some batchB) none now0 cutoff0 true 90)
        now0 cutoff0 true 90) "g" 1 ∧
    itemAt (mergeData (some batchB) (mergeData (some batchA) none now0 cutoff0 true 90)
        now0 cutoff0 true 90) "g" 2 = some tieB := by
  have hagree : ∀ (g : String) (k : Nat),
      lastWithId (batchItems batchA g) k = none ∨
        lastWithId (batchItems batchB g) k = none ∨
        lastWithId (batchItems batchA g) k = lastWithId (batchItems batchB g) k := by
    intro g k
    by_cases hg : g = "g"
    · subst hg
      by_cases hk : k = 1
      · subst hk
        right
        left
        decide
      · left
        have hb : batchItems batchA "g" = [tieA] := by decide
        have hid : ¬ (tieA.item_id = k) := by
          intro hc
          apply hk
          have h1 : tieA.item_id = 1 := rfl
          rw [h1] at hc
          exact hc.symm
        rw [hb, lastWithId, List.filter_cons, if_neg (by simpa using hid)]
        rfl
    · left
      have hgm : g ∉ batchA.map Prod.fst := by
        intro hc
        apply hg
        simpa [batchA] using hc
      rw [batchItems_of_not_mem hgm]
      rfl
  exact ⟨(merge_order_content batchA batchB none now0 cutoff0 true 90
      (by decide) (by decide)).1 hagree "g" 1,
    (merge_order_content batchA batchB none now0 cutoff0 true 90
      (by decide) (by decide)).2 "g" [tieB] 2 tieB (by decide) (by decide) (by decide)⟩

/-- C6: merging an absent or empty (falsy) increment batch leaves the store
exactly as it was, `last_updated` included, and is a no-op rather than an
error. -/
theorem merge_empty_increment_is_noop :
    ∀ (hist : Option Store) (now cutoff : String) (extra : Bool) (days : Nat),
      mergeData none hist now cutoff extra days = hist :=
  fun _ _ _ _ _ => rfl

/-- C8: aggregating the empty record list yields the all-zero summary with
rate 0 (both in `calculate_summary` and in the per-repo statistics of
`main`), and whenever the summed `total_commits` is 0 the
`avg_retests_per_commit` is 0 instead of a division by zero. -/
theorem aggregate_empty_and_zero_commits :
    calculateSummary [] true =
      { total_items := 0, total_retests := 0, items_with_retests := 0, retest_rate := 0,
        retest_comments := some 0, update_branch_actions := some 0 } ∧
    calculateSummary [] false =
      { total_items := 0, total_retests := 0, items_with_retests := 0, retest_rate := 0,
        retest_comments := none, update_branch_actions := none } ∧
    repoSummary [] =
      { total_prs_analyzed := 0, total_commits := 0, total_runs := 0, total_retests := 0,
        prs_with_retests := 0, pr_retest_rate := 0, avg_retests_per_pr := 0,
        avg_retests_per_commit := 0 } ∧
    ∀ results : List Item,
      (results.map (fun r => r.total_commits)).sum = 0 →
        (repoSummary results).avg_retests_per_commit = 0 := by
  refine ⟨rfl, rfl, rfl, ?_⟩
  intro results h
  simp only [repoSummary, h]
  norm_num

/-- Witness for C8: a record list whose commit total is 0 still gets
`avg_retests_per_commit = 0`. -/
theorem aggregate_empty_and_zero_commits_witness :
    (repoSummary [zeroCommitItem]).avg_retests_per_commit = 0 :=
  aggregate_empty_and_zero_commits.2.2.2 [zeroCommitItem] (by decide)

/-- C9: under the rerun-instance strategy each commit contributes
`max(0, instance_count - 1)` and a change's `total_retests` is the sum of
those contributions over its commits (both for the GitHub check-suite loop
and the GitLab pipeline loop); in particular 3 instances yield 2 retries. -/
theorem rerun_instance_retries :
    (∀ runCounts : List Int,
        (analyzePRTotals runCounts).2.1 = (runCounts.map retestOfRuns).sum) ∧
    (∀ pipelineCounts : List Int,
        (analyzeMRTotals pipelineCounts).2.1 = (pipelineCounts.map retestOfRuns).sum) ∧
    retestOfRuns 3 = 2 := by
  refine ⟨?_, ?_, rfl⟩
  · intro l
    simpa using foldl_runTotalsStep_retests l 0 0 0
  · intro l
    simpa using foldl_runTotalsStep_retests l 0 0 0

/-- C10: a comment counts exactly once iff its body, case-insensitively
trimmed, starts with the retry token or has it as the first token of a
line; the scenario ["lgtm", "/retest", "please\n/retest\nthanks"] counts 2. -/
theorem comment_command_count :
    commentRetryCount ["lgtm", "/retest", "please\n/retest\nthanks"] = 2 ∧
    ∀ (c : String) (cs : List String),
      (commentIsRetry c = true → commentRetryCount (c :: cs) = commentRetryCount cs + 1) ∧
      (commentIsRetry c = false → commentRetryCount (c :: cs) = commentRetryCount cs) := by
  refine ⟨by decide, ?_⟩
  intro c cs
  constructor
  · intro h
    simp [commentRetryCount, List.filter_cons, h]
  · intro h
    simp [commentRetryCount, List.filter_cons, h]

/-- Witness for C10: a qualifying comment raises the count by one and a
non-qualifying one leaves it unchanged, at concrete inputs. -/
theorem comment_command_count_witness :
    commentRetryCount ["/retest", "lgtm"] = commentRetryCount ["lgtm"] + 1 ∧
    commentRetryCount ["nope", "lgtm"] = commentRetryCount ["lgtm"] :=
  ⟨(comment_command_count.2 "/retest" ["lgtm"]).1 (by decide),
   (comment_command_count.2 "nope" ["lgtm"]).2 (by decide)⟩

end Konflux
